import Mathlib

/-!
Shallow embedding of `src/binary.js`: an immutable fixed-width bit-vector
class (`Binary`) with conversions to/from signed and unsigned integers,
bitwise operations, ripple-carry addition and zero extension.

Modelling conventions:
* JS numbers that hold integer values are modelled as `Int` (inputs) and
  `Nat` (bit values, bit counts).  `Number.isInteger` is therefore always
  true on embedded inputs and the corresponding throw sites are
  unreachable in the embedding.
* A `throw new Error(...)` is modelled as `Except.error` with a
  constructor of `Err` recording the data interpolated into the message.
* `Math.floor(Math.log2(n))` for a positive integer `n` is modelled as the
  exact binary logarithm `Nat.log2 n`.  For a negative `n`, `Math.log2`
  returns `NaN`, `Math.floor(NaN)` is `NaN`, and the loop guard
  `NaN >= 0` is false, so the loop body never runs: the embedding returns
  the empty bit list in that case.
* `this.bits[0] === 0` is `bits.head? = some 0` (out-of-bounds indexing
  yields `undefined`, which is not `=== 0`).
* Bits are stored most-significant first, exactly as in the source.
-/

deriving instance DecidableEq for Except

/-- Error kinds for the four throw sites of `binary.js`. -/
inductive Err where
  /-- Thrown as `Can only create Binary from integers.` (fromSigned / fromUnsigned). -/
  | invalidInput : Err
  /-- Thrown as `Bit mismatch (a = ..., b = ...)` (assertSameNumberOfBits);
      the arguments record `this.bits.length` and `other.bits.length`. -/
  | widthMismatch (a b : Nat) : Err
  /-- Thrown as `Need to extend to a larger number of bits (current, target)`
      (zeroExtend). -/
  | invalidWidth (current target : Nat) : Err
  /-- Thrown as `Not an instance of Binary` (assertIsBinary); unreachable in the
      typed embedding, kept for completeness. -/
  | notABitVector : Err
deriving DecidableEq

/-- Source helper `combineMap(a1, a2, fn)`: map over `a1` using the elements of `a2` as the
second callback input.  Every call site first asserts equal lengths, where
it coincides with `zipWith`. -/
def combineMap (a1 a2 : List Nat) (fn : Nat → Nat → Nat) : List Nat :=
  List.zipWith fn a1 a2

/-- The `Binary` class: an ordered bit sequence, most-significant bit
first. -/
structure Binary where
  bits : List Nat
deriving DecidableEq

namespace Binary

/-- Method `toNumber()`: unsigned interpretation; the bit at index `i` of a
width-`L` vector contributes `2^(L-1-i)` when it equals `1`. -/
def toNumberBits : List Nat → Nat
  | [] => 0
  | bit :: rest => (if bit = 1 then 2 ^ rest.length else 0) + toNumberBits rest

/-- Method `toNumber()` on a `Binary` value. -/
def toNumber (b : Binary) : Nat :=
  toNumberBits b.bits

/-- Method `assertSameNumberOfBits(other)`: throws when the lengths differ. -/
def assertSameNumberOfBits (b other : Binary) : Except Err Unit :=
  if other.bits.length ≠ b.bits.length then
    .error (.widthMismatch b.bits.length other.bits.length)
  else
    .ok ()

/-- Bit flip used by `not()`: every bit is mapped via `x === 0 ? 1 : 0`. -/
def notBits (l : List Nat) : List Nat :=
  l.map fun x => if x = 0 then 1 else 0

/-- Method `not()` on a `Binary` value. -/
protected def not (b : Binary) : Binary :=
  ⟨notBits b.bits⟩

/-- The loop body of `fromUnsigned`: iterate the exponent `e` down to `0`;
emit `1` and subtract `2^e` when the remainder allows it, else emit `0`. -/
def unsignedBitsAux : Nat → Nat → List Nat
  | 0, r => if 2 ^ 0 ≤ r then [1] else [0]
  | e + 1, r =>
    if 2 ^ (e + 1) ≤ r then 1 :: unsignedBitsAux e (r - 2 ^ (e + 1))
    else 0 :: unsignedBitsAux e r

/-- Factory `Binary.fromUnsigned(n)`.  For `n = 0` the result is `[0]`.  For
`n < 0`, `Math.floor(Math.log2(n))` is `NaN` and the loop guard
`NaN >= 0` is false, so the bit array stays empty.  For `n > 0` the loop
runs from `Math.floor(Math.log2(n))` down to `0`. -/
def fromUnsigned (n : Int) : Except Err Binary :=
  -- `Number.isInteger(n)` holds for every `Int`, so the `invalidInput`
  -- throw is unreachable here.
  if n = 0 then .ok ⟨[0]⟩
  else if n < 0 then .ok ⟨[]⟩
  else .ok ⟨unsignedBitsAux (Nat.log2 n.toNat) n.toNat⟩

/-- Method `zeroExtend(nBits)`: prepend `nBits - length` zeros; throws when
`nBits <= this.bits.length`. -/
def zeroExtend (b : Binary) (nBits : Nat) : Except Err Binary :=
  if nBits ≤ b.bits.length then
    .error (.invalidWidth b.bits.length nBits)
  else
    .ok ⟨List.replicate (nBits - b.bits.length) 0 ++ b.bits⟩

/-- Method `zeroExtendToMatch(other)`: `zeroExtend` to the length of `other`. -/
def zeroExtendToMatch (b other : Binary) : Except Err Binary :=
  -- assertIsBinary(other) always passes in the typed embedding
  zeroExtend b other.bits.length

/-- The `combineMap` callback of `add`, with the mutable `carryBit`
threaded explicitly: input is the zipped pair list in least-significant
first order, output is the mapped list together with the final carry. -/
def addLoop : List (Nat × Nat) → Nat → List Nat × Nat
  | [], carryBit => ([], carryBit)
  | p :: rest, carryBit =>
    let abSum := p.1 ^^^ p.2
    let abCarry := p.1 &&& p.2
    let abSumPlusCarry := abSum ^^^ carryBit
    let abSumCarry := abSum &&& carryBit
    let next := addLoop rest (abCarry ||| abSumCarry)
    (abSumPlusCarry :: next.1, next.2)

/-- Method `add(other)`: ripple-carry addition over the reversed (LSB-first) bit
lists; the result is the final carry bit consed onto the re-reversed sum
bits, hence one bit wider. -/
def add (b other : Binary) : Except Err Binary :=
  -- assertIsBinary(other) always passes in the typed embedding
  if other.bits.length ≠ b.bits.length then
    .error (.widthMismatch b.bits.length other.bits.length)
  else
    let zipped := b.bits.reverse.zip other.bits.reverse
    let run := addLoop zipped 0
    .ok ⟨run.2 :: run.1.reverse⟩

/-- Method `and(other)`: bitwise AND at matching positions. -/
protected def and (b other : Binary) : Except Err Binary :=
  if other.bits.length ≠ b.bits.length then
    .error (.widthMismatch b.bits.length other.bits.length)
  else
    .ok ⟨combineMap b.bits other.bits (fun bit1 bit2 => bit1 &&& bit2)⟩

/-- Method `or(other)`: bitwise OR at matching positions. -/
protected def or (b other : Binary) : Except Err Binary :=
  if other.bits.length ≠ b.bits.length then
    .error (.widthMismatch b.bits.length other.bits.length)
  else
    .ok ⟨combineMap b.bits other.bits (fun bit1 bit2 => bit1 ||| bit2)⟩

/-- Method `xor(other)`: bitwise XOR at matching positions. -/
protected def xor (b other : Binary) : Except Err Binary :=
  if other.bits.length ≠ b.bits.length then
    .error (.widthMismatch b.bits.length other.bits.length)
  else
    .ok ⟨combineMap b.bits other.bits (fun bit1 bit2 => bit1 ^^^ bit2)⟩

/-- Factory `Binary.fromSigned(n)`: build from `|n|`, zero-extend by one sign bit;
for negative `n`, flip, add one, and drop the carry bit. -/
def fromSigned (n : Int) : Except Err Binary :=
  -- `Number.isInteger(n)` holds for every `Int`.
  if n = 0 then .ok ⟨[0]⟩
  else do
    let unsigned ← fromUnsigned (n.natAbs : Int)
    let numberOfBits := unsigned.bits.length + 1
    let withZeroSignBit ← unsigned.zeroExtend numberOfBits
    if 0 < n then
      return withZeroSignBit
    else
      let flipped := withZeroSignBit.not
      let one ← fromUnsigned 1
      let oneExtended ← one.zeroExtend numberOfBits
      let withAddedOne ← flipped.add oneExtended
      return ⟨withAddedOne.bits.drop 1⟩

/-- Method `toSignedNumber()`: twos-complement interpretation.  Sign bit `0`
(`bits[0] === 0`) gives `toNumber()`; otherwise add the all-ones vector,
flip, drop the carry bit and negate. -/
def toSignedNumber (b : Binary) : Except Err Int :=
  if b.bits.head? = some 0 then
    .ok (b.toNumber : Int)
  else do
    let minusOne : Binary := ⟨List.replicate b.bits.length 1⟩
    let positiveWithCarry := (← b.add minusOne).not
    let positiveNumber : Binary := ⟨positiveWithCarry.bits.drop 1⟩
    return -(positiveNumber.toNumber : Int)

/-- A bit list is valid when every element is `0` or `1`; every vector the
factories produce satisfies this, and the spec states it as an invariant. -/
def bitsValid (l : List Nat) : Prop :=
  ∀ x ∈ l, x = 0 ∨ x = 1

instance (l : List Nat) : Decidable (bitsValid l) :=
  List.decidableBAll _ l

/-- Least-significant-first value of a bit list, used to reason about the
reversed iteration order inside `add`. -/
def lsbVal : List Nat → Nat
  | [] => 0
  | b :: rest => b + 2 * lsbVal rest

theorem bitsValid_nil : bitsValid [] := by
  intro x hx
  cases hx

theorem bitsValid_cons {b : Nat} {l : List Nat} (hb : b = 0 ∨ b = 1)
    (hl : bitsValid l) : bitsValid (b :: l) := by
  intro x hx
  rcases List.mem_cons.mp hx with rfl | hx
  · exact hb
  · exact hl x hx

theorem bitsValid_of_cons {b : Nat} {l : List Nat} (h : bitsValid (b :: l)) :
    (b = 0 ∨ b = 1) ∧ bitsValid l := by
  refine ⟨h b (List.mem_cons_self _ _), fun x hx => h x (List.mem_cons_of_mem _ hx)⟩

/-- The unsigned value of any bit list is below `2 ^ width`. -/
theorem toNumberBits_lt (l : List Nat) : toNumberBits l < 2 ^ l.length := by
  induction l with
  | nil => simp [toNumberBits]
  | cons b r ih =>
    simp only [toNumberBits, List.length_cons, pow_succ]
    split
    · omega
    · omega

/-- A bit list whose value reaches `2 ^ (width - 1)` has leading bit `1`. -/
theorem head_eq_one_of_le {b : Nat} {r : List Nat}
    (h : 2 ^ r.length ≤ toNumberBits (b :: r)) : b = 1 := by
  by_contra hb
  have hr := toNumberBits_lt r
  have hT : toNumberBits (b :: r) = toNumberBits r := by
    simp [toNumberBits, hb]
  omega

/-- Dropping a leading bit that is not `1` keeps the unsigned value. -/
theorem toNumberBits_cons_of_lt {b : Nat} {r : List Nat}
    (h : toNumberBits (b :: r) < 2 ^ r.length) :
    toNumberBits (b :: r) = toNumberBits r ∧ b ≠ 1 := by
  by_cases hb : b = 1
  · exfalso
    subst hb
    have hr := toNumberBits_lt r
    have hT : toNumberBits (1 :: r) = 2 ^ r.length + toNumberBits r := by
      simp [toNumberBits]
    omega
  · simp [toNumberBits, hb]

theorem lsbVal_append (l1 l2 : List Nat) :
    lsbVal (l1 ++ l2) = lsbVal l1 + 2 ^ l1.length * lsbVal l2 := by
  induction l1 with
  | nil => simp [lsbVal]
  | cons b r ih =>
    show b + 2 * lsbVal (r ++ l2)
        = b + 2 * lsbVal r + 2 ^ (r.length + 1) * lsbVal l2
    rw [ih]
    ring

/-- On valid bit lists the MSB-first value is the LSB-first value of the
reversed list. -/
theorem toNumberBits_eq_lsbVal_reverse {l : List Nat} (h : bitsValid l) :
    toNumberBits l = lsbVal l.reverse := by
  induction l with
  | nil => simp [toNumberBits, lsbVal]
  | cons b r ih =>
    obtain ⟨hb, hr⟩ := bitsValid_of_cons h
    rw [List.reverse_cons, lsbVal_append, ← ih hr]
    simp only [List.length_reverse]
    rcases hb with rfl | rfl <;> simp [toNumberBits, lsbVal, Nat.add_comm]

/-- One step of the ripple carry: for bits `a`, `b` and carry `c`, the
result bit and carry-out computed by the `add` callback represent
`a + b + c` and are themselves bits. -/
theorem addStep (a b c : Nat) (ha : a = 0 ∨ a = 1) (hb : b = 0 ∨ b = 1)
    (hc : c = 0 ∨ c = 1) :
    ((a ^^^ b) ^^^ c) + 2 * ((a &&& b) ||| ((a ^^^ b) &&& c)) = a + b + c ∧
    ((a ^^^ b) ^^^ c = 0 ∨ (a ^^^ b) ^^^ c = 1) ∧
    ((a &&& b) ||| ((a ^^^ b) &&& c) = 0 ∨
      (a &&& b) ||| ((a ^^^ b) &&& c) = 1) := by
  rcases ha with rfl | rfl <;> rcases hb with rfl | rfl <;>
    rcases hc with rfl | rfl <;> decide

/-- Full specification of the `add` loop on the zipped LSB-first pair
list: the produced bits and final carry represent the sum of the two
columns plus the incoming carry, every produced value is a bit, and the
length is preserved. -/
theorem addLoop_spec (ps : List (Nat × Nat)) (c : Nat)
    (hps : ∀ p ∈ ps, (p.1 = 0 ∨ p.1 = 1) ∧ (p.2 = 0 ∨ p.2 = 1))
    (hc : c = 0 ∨ c = 1) :
    lsbVal (addLoop ps c).1 + 2 ^ ps.length * (addLoop ps c).2
        = lsbVal (ps.map Prod.fst) + lsbVal (ps.map Prod.snd) + c ∧
      bitsValid (addLoop ps c).1 ∧
      ((addLoop ps c).2 = 0 ∨ (addLoop ps c).2 = 1) ∧
      (addLoop ps c).1.length = ps.length := by
  induction ps generalizing c with
  | nil =>
    simpa [addLoop, lsbVal, bitsValid_nil] using hc
  | cons p rest ih =>
    obtain ⟨hp1, hp2⟩ := hps p (List.mem_cons_self _ _)
    have hrest : ∀ q ∈ rest, (q.1 = 0 ∨ q.1 = 1) ∧ (q.2 = 0 ∨ q.2 = 1) :=
      fun q hq => hps q (List.mem_cons_of_mem _ hq)
    obtain ⟨hstep, hbit, hcarry⟩ := addStep p.1 p.2 c hp1 hp2 hc
    obtain ⟨ihv, ihvalid, ihc, ihlen⟩ :=
      ih ((p.1 &&& p.2) ||| ((p.1 ^^^ p.2) &&& c)) hrest hcarry
    refine ⟨?_, bitsValid_cons hbit ihvalid, ihc, by simp [addLoop, ihlen]⟩
    have h2 : 2 ^ (rest.length + 1) *
          (addLoop rest ((p.1 &&& p.2) ||| ((p.1 ^^^ p.2) &&& c))).2
        = 2 * (2 ^ rest.length *
            (addLoop rest ((p.1 &&& p.2) ||| ((p.1 ^^^ p.2) &&& c))).2) := by
      ring
    simp only [addLoop, lsbVal, List.map_cons, List.length_cons]
    rw [h2]
    omega

theorem length_notBits (l : List Nat) : (notBits l).length = l.length := by
  simp [notBits]

theorem bitsValid_notBits (l : List Nat) : bitsValid (notBits l) := by
  intro x hx
  simp only [notBits, List.mem_map] at hx
  obtain ⟨y, -, rfl⟩ := hx
  by_cases hy : y = 0 <;> simp [hy]

/-- Flipping every bit of a valid list complements its value with respect
to `2 ^ width - 1`, stated subtraction-free. -/
theorem toNumberBits_notBits {l : List Nat} (h : bitsValid l) :
    toNumberBits (notBits l) + toNumberBits l + 1 = 2 ^ l.length := by
  induction l with
  | nil => simp [notBits, toNumberBits]
  | cons b r ih =>
    obtain ⟨hb, hr⟩ := bitsValid_of_cons h
    have hrec := ih hr
    have hlen : (notBits r).length = r.length := length_notBits r
    have hcons : toNumberBits (notBits (b :: r))
        = (if (if b = 0 then 1 else 0) = 1 then 2 ^ (notBits r).length else 0)
          + toNumberBits (notBits r) := rfl
    have hgoal : toNumberBits (b :: r)
        = (if b = 1 then 2 ^ r.length else 0) + toNumberBits r := rfl
    rw [hcons, hgoal, hlen, List.length_cons]
    rcases hb with rfl | rfl <;> simp <;> omega

theorem bitsValid_replicate_zero (k : Nat) :
    bitsValid (List.replicate k 0) := by
  intro x hx
  left
  exact (List.eq_of_mem_replicate hx)

theorem bitsValid_replicate_one (k : Nat) :
    bitsValid (List.replicate k 1) := by
  intro x hx
  right
  exact (List.eq_of_mem_replicate hx)

/-- Prepending zeros never changes the unsigned value. -/
theorem toNumberBits_replicate_zero_append (k : Nat) (l : List Nat) :
    toNumberBits (List.replicate k 0 ++ l) = toNumberBits l := by
  induction k with
  | zero => simp
  | succ n ih =>
    simp only [List.replicate_succ, List.cons_append, toNumberBits]
    simpa using ih

/-- The all-ones vector of width `k` has value `2 ^ k - 1`, stated
subtraction-free. -/
theorem toNumberBits_replicate_one (k : Nat) :
    toNumberBits (List.replicate k 1) + 1 = 2 ^ k := by
  induction k with
  | zero => simp [toNumberBits]
  | succ n ih =>
    have hstep : toNumberBits (List.replicate (n + 1) 1)
        = 2 ^ n + toNumberBits (List.replicate n 1) := by
      simp [List.replicate_succ, toNumberBits]
    omega

theorem bitsValid_append {l1 l2 : List Nat} (h1 : bitsValid l1)
    (h2 : bitsValid l2) : bitsValid (l1 ++ l2) := by
  intro x hx
  rcases List.mem_append.mp hx with hx | hx
  · exact h1 x hx
  · exact h2 x hx

/-- Successful-case specification of `add`: on equal-width valid vectors
it returns a vector one bit wider, still valid, whose unsigned value is
the exact sum of the operands. -/
theorem add_spec (a b : Binary) (hlen : a.bits.length = b.bits.length)
    (ha : bitsValid a.bits) (hb : bitsValid b.bits) :
    ∃ c : Binary, add a b = .ok c ∧
      c.bits.length = a.bits.length + 1 ∧
      bitsValid c.bits ∧
      toNumber c = toNumber a + toNumber b := by
  have hrev : a.bits.reverse.length = b.bits.reverse.length := by
    simpa using hlen
  set zipped := a.bits.reverse.zip b.bits.reverse with hzip
  have hps : ∀ p ∈ zipped, (p.1 = 0 ∨ p.1 = 1) ∧ (p.2 = 0 ∨ p.2 = 1) := by
    intro p hp
    obtain ⟨h1, h2⟩ := List.of_mem_zip hp
    exact ⟨ha p.1 (List.mem_reverse.mp h1), hb p.2 (List.mem_reverse.mp h2)⟩
  obtain ⟨hval, hvalid, hcarry, hlen2⟩ := addLoop_spec zipped 0 hps (Or.inl rfl)
  have hfst : zipped.map Prod.fst = a.bits.reverse := by
    exact List.map_fst_zip _ _ (le_of_eq hrev)
  have hsnd : zipped.map Prod.snd = b.bits.reverse := by
    exact List.map_snd_zip _ _ (ge_of_eq hrev)
  have hziplen : zipped.length = a.bits.length := by
    simp [hzip, hlen]
  refine ⟨⟨(addLoop zipped 0).2 :: (addLoop zipped 0).1.reverse⟩, ?_, ?_, ?_, ?_⟩
  · simp only [add, hlen, ne_eq, not_true_eq_false, if_false]
  · simp [hlen2, hziplen]
  · refine bitsValid_cons hcarry ?_
    intro x hx
    exact hvalid x (List.mem_reverse.mp hx)
  · have hvrev : bitsValid (addLoop zipped 0).1.reverse := by
      intro x hx
      exact hvalid x (List.mem_reverse.mp hx)
    have hv : bitsValid ((addLoop zipped 0).2 :: (addLoop zipped 0).1.reverse) :=
      bitsValid_cons hcarry hvrev
    show toNumberBits ((addLoop zipped 0).2 :: (addLoop zipped 0).1.reverse)
        = toNumberBits a.bits + toNumberBits b.bits
    rw [toNumberBits_eq_lsbVal_reverse hv, List.reverse_cons,
      List.reverse_reverse, lsbVal_append]
    rw [toNumberBits_eq_lsbVal_reverse ha, toNumberBits_eq_lsbVal_reverse hb]
    rw [← hfst, ← hsnd]
    have hcval : lsbVal [(addLoop zipped 0).2] = (addLoop zipped 0).2 := by
      simp [lsbVal]
    rw [hcval, hlen2]
    omega

theorem unsignedBitsAux_length (e r : Nat) :
    (unsignedBitsAux e r).length = e + 1 := by
  induction e generalizing r with
  | zero =>
    simp only [unsignedBitsAux]
    split <;> simp
  | succ n ih =>
    by_cases h : 2 ^ (n + 1) ≤ r <;> simp [unsignedBitsAux, h, ih]

theorem unsignedBitsAux_valid (e r : Nat) :
    bitsValid (unsignedBitsAux e r) := by
  induction e generalizing r with
  | zero =>
    by_cases h : 2 ^ 0 ≤ r <;> simp [unsignedBitsAux, h] <;> intro x hx <;>
      simp_all [bitsValid]
  | succ n ih =>
    by_cases h : 2 ^ (n + 1) ≤ r <;> simp only [unsignedBitsAux, h, if_pos, if_neg,
      if_true, if_false] <;> exact bitsValid_cons (by simp) (ih _)

/-- The greedy subtraction loop is exact: when the remainder fits in the
available exponents, the emitted bits have exactly the value of the remainder. -/
theorem unsignedBitsAux_toNumber (e r : Nat) (h : r < 2 ^ (e + 1)) :
    toNumberBits (unsignedBitsAux e r) = r := by
  induction e generalizing r with
  | zero =>
    simp only [unsignedBitsAux]
    split <;> simp [toNumberBits] <;> omega
  | succ n ih =>
    by_cases h1 : 2 ^ (n + 1) ≤ r
    · have hsub : r - 2 ^ (n + 1) < 2 ^ (n + 1) := by
        have := pow_succ 2 (n + 1)
        omega
      have hrec := ih (r - 2 ^ (n + 1)) hsub
      have hlen := unsignedBitsAux_length n (r - 2 ^ (n + 1))
      simp only [unsignedBitsAux, if_pos h1, toNumberBits, hlen, hrec]
      simp
      omega
    · have hrec := ih r (by omega)
      have hlen := unsignedBitsAux_length n r
      simp only [unsignedBitsAux, if_neg h1, toNumberBits, hlen, hrec]
      simp

/-- When the remainder reaches `2 ^ e`, the first emitted bit is `1`. -/
theorem unsignedBitsAux_head (e r : Nat) (h : 2 ^ e ≤ r) :
    (unsignedBitsAux e r).head? = some 1 := by
  cases e with
  | zero =>
    simp only [unsignedBitsAux]
    rw [if_pos h]
    rfl
  | succ n => simp [unsignedBitsAux, h]

/-- Successful-case specification of `fromUnsigned` on positive inputs:
minimal width `log2 n + 1`, leading bit `1`, valid bits, exact value. -/
theorem fromUnsigned_pos_spec (m : Nat) (hm : 0 < m) :
    fromUnsigned (m : Int) = .ok ⟨unsignedBitsAux (Nat.log2 m) m⟩ ∧
    (unsignedBitsAux (Nat.log2 m) m).length = Nat.log2 m + 1 ∧
    bitsValid (unsignedBitsAux (Nat.log2 m) m) ∧
    toNumberBits (unsignedBitsAux (Nat.log2 m) m) = m ∧
    (unsignedBitsAux (Nat.log2 m) m).head? = some 1 := by
  have h0 : (m : Int) ≠ 0 := by omega
  have h1 : ¬ ((m : Int) < 0) := by omega
  refine ⟨?_, unsignedBitsAux_length _ _, unsignedBitsAux_valid _ _, ?_, ?_⟩
  · simp [fromUnsigned, h0, h1]
  · exact unsignedBitsAux_toNumber _ _ Nat.lt_log2_self
  · exact unsignedBitsAux_head _ _ (Nat.log2_self_le (Nat.pos_iff_ne_zero.mp hm))

/-- Successful-case specification of `zeroExtend`: for a strictly larger
target width it prepends zeros, so the width becomes the target and the
unsigned value is unchanged. -/
theorem zeroExtend_spec (b : Binary) (nBits : Nat) (h : b.bits.length < nBits) :
    zeroExtend b nBits
        = .ok ⟨List.replicate (nBits - b.bits.length) 0 ++ b.bits⟩ ∧
      (List.replicate (nBits - b.bits.length) 0 ++ b.bits).length = nBits ∧
      toNumberBits (List.replicate (nBits - b.bits.length) 0 ++ b.bits)
        = toNumberBits b.bits := by
  refine ⟨?_, ?_, toNumberBits_replicate_zero_append _ _⟩
  · simp [zeroExtend, Nat.not_le.mpr h]
  · simp
    omega

/-- Negative-branch specification of `toSignedNumber`: on a valid vector
whose sign bit is `1`, the add-all-ones / flip / drop-carry sequence
returns the unsigned value minus `2 ^ width`. -/
theorem toSignedNumber_neg_spec (b : Binary) (hv : bitsValid b.bits)
    (hh : b.bits.head? = some 1) :
    toSignedNumber b = .ok ((toNumber b : Int) - 2 ^ b.bits.length) := by
  obtain ⟨tail, htail⟩ : ∃ t, b.bits = 1 :: t := by
    cases hb : b.bits with
    | nil => rw [hb] at hh; simp at hh
    | cons x t =>
      rw [hb] at hh
      simp at hh
      exact ⟨t, by rw [hh]⟩
  have hbranch : ¬ (b.bits.head? = some 0) := by
    rw [htail]; simp
  have hpos : 0 < toNumberBits b.bits := by
    rw [htail]
    have := toNumberBits_lt tail
    simp [toNumberBits]
  set L := b.bits.length with hL
  have hones : bitsValid (List.replicate L 1) := bitsValid_replicate_one L
  have honeslen : (List.replicate L 1).length = L := by simp
  have honesval : toNumberBits (List.replicate L 1) + 1 = 2 ^ L :=
    toNumberBits_replicate_one L
  have hlen_eq : b.bits.length = (⟨List.replicate L 1⟩ : Binary).bits.length := by
    show b.bits.length = (List.replicate L 1).length
    rw [honeslen, hL]
  obtain ⟨s, hadd, hslen, hsvalid, hsval⟩ :=
    add_spec b ⟨List.replicate L 1⟩ hlen_eq hv hones
  have hnotlen : (notBits s.bits).length = L + 1 := by
    rw [length_notBits, hslen]
  have hnotvalid : bitsValid (notBits s.bits) := bitsValid_notBits s.bits
  have hnotval : toNumberBits (notBits s.bits) + toNumberBits s.bits + 1
      = 2 ^ (L + 1) := by
    have := toNumberBits_notBits hsvalid
    rwa [hslen] at this
  have hblt : toNumberBits b.bits < 2 ^ L := by
    have := toNumberBits_lt b.bits
    rwa [← hL] at this
  -- the flipped sum has value 2 ^ L - toNumber b, hence its leading bit is 0
  have hflipval : toNumberBits (notBits s.bits) + toNumberBits b.bits = 2 ^ L := by
    have hs : toNumberBits s.bits
        = toNumberBits b.bits + toNumberBits (List.replicate L 1) := hsval
    omega
  obtain ⟨nb, ntail, hnb⟩ : ∃ x t, notBits s.bits = x :: t := by
    cases hn : notBits s.bits with
    | nil => rw [hn] at hnotlen; simp at hnotlen
    | cons x t => exact ⟨x, t, rfl⟩
  have hntlen : ntail.length = L := by
    rw [hnb] at hnotlen
    simpa using hnotlen
  have hdrop : toNumberBits ((notBits s.bits).drop 1) = 2 ^ L - toNumberBits b.bits := by
    rw [hnb]
    simp only [List.drop_one, List.tail_cons]
    have hlt : toNumberBits (nb :: ntail) < 2 ^ ntail.length := by
      rw [← hnb, hntlen]
      omega
    obtain ⟨heq, -⟩ := toNumberBits_cons_of_lt hlt
    rw [← heq, ← hnb]
    omega
  show (if b.bits.head? = some 0 then _ else _) = _
  rw [if_neg hbranch]
  have haddbind : b.add ⟨List.replicate b.bits.length 1⟩ = .ok s := by
    rw [← hL]; exact hadd
  simp only [haddbind, Except.bind, Binary.not, bind, Except.bind]
  show Except.ok (-(toNumberBits ((notBits s.bits).drop 1) : Int))
      = Except.ok ((toNumberBits b.bits : Int) - 2 ^ L)
  rw [hdrop]
  congr 1
  have hle : toNumberBits b.bits ≤ 2 ^ L := le_of_lt hblt
  push_cast [Nat.cast_sub hle]
  ring

/-- Zero-extending by exactly one bit prepends a single `0`. -/
theorem zeroExtend_succ (l : List Nat) :
    zeroExtend ⟨l⟩ (l.length + 1) = .ok ⟨0 :: l⟩ := by
  have h1 : ¬ (l.length + 1 ≤ l.length) := by omega
  have h2 : l.length + 1 - l.length = 1 := by omega
  simp [zeroExtend, h1, h2]

theorem fromUnsigned_one : fromUnsigned 1 = .ok ⟨[1]⟩ := by
  have hlog : Nat.log2 1 = 0 := by simp [Nat.log2]
  have h0 : ¬ ((1 : Int) = 0) := by omega
  have h1 : ¬ ((1 : Int) < 0) := by omega
  simp [fromUnsigned, h0, h1, hlog, unsignedBitsAux]

/-- Evaluation of `fromSigned` on a positive input: the minimal unsigned representation
with a `0` sign bit prepended. -/
theorem fromSigned_pos_ok (n : Int) (hn : 0 < n) :
    fromSigned n = .ok ⟨0 :: unsignedBitsAux (Nat.log2 n.natAbs) n.natAbs⟩ := by
  have hn0 : ¬ (n = 0) := by omega
  have hm : 0 < n.natAbs := by omega
  obtain ⟨hfu, hlen, -, -, -⟩ := fromUnsigned_pos_spec n.natAbs hm
  have hz := zeroExtend_succ (unsignedBitsAux (Nat.log2 n.natAbs) n.natAbs)
  simp only [fromSigned, if_neg hn0, hfu, bind, Except.bind, hz, if_pos hn,
    pure, Except.pure]

/-- Prepending zeros via `zeroExtend` on an explicit bit list. -/
theorem zeroExtend_ok (l : List Nat) (nBits : Nat) (h : l.length < nBits) :
    zeroExtend ⟨l⟩ nBits = .ok ⟨List.replicate (nBits - l.length) 0 ++ l⟩ := by
  have h1 : ¬ (nBits ≤ l.length) := by omega
  simp [zeroExtend, h1]

/-- Evaluation of `fromSigned` on a negative input: the returned vector is valid, one
bit wider than the minimal unsigned width of `|n|`, carries a `1` sign
bit, and its unsigned value is `2 ^ width - |n|`. -/
theorem fromSigned_neg_spec (n : Int) (hn : n < 0) :
    ∃ r : Binary, fromSigned n = .ok r ∧
      bitsValid r.bits ∧
      r.bits.length = Nat.log2 n.natAbs + 2 ∧
      r.bits.head? = some 1 ∧
      toNumberBits r.bits + n.natAbs = 2 ^ (Nat.log2 n.natAbs + 2) := by
  have hn0 : ¬ (n = 0) := by omega
  have hnpos : ¬ (0 < n) := by omega
  have hm : 0 < n.natAbs := by omega
  set m := n.natAbs with hmdef
  obtain ⟨hfu, hulen, huvalid, huval, -⟩ := fromUnsigned_pos_spec m hm
  set ubits := unsignedBitsAux (Nat.log2 m) m with hubits
  have hz := zeroExtend_succ ubits
  -- the zero-extended vector
  have hzvalid : bitsValid (0 :: ubits) := bitsValid_cons (Or.inl rfl) huvalid
  have hzval : toNumberBits (0 :: ubits) = m := by
    simp [toNumberBits, huval]
  -- the flipped vector
  have hflen : (notBits (0 :: ubits)).length = ubits.length + 1 := by
    rw [length_notBits]
    rfl
  have hfvalid : bitsValid (notBits (0 :: ubits)) := bitsValid_notBits _
  have hfval : toNumberBits (notBits (0 :: ubits)) + m + 1
      = 2 ^ (ubits.length + 1) := by
    have h := toNumberBits_notBits hzvalid
    rw [hzval] at h
    simpa using h
  -- the zero-extended one
  have hz2 : zeroExtend ⟨[1]⟩ (ubits.length + 1)
      = .ok ⟨List.replicate ubits.length 0 ++ [1]⟩ := by
    have h1 : ([1] : List Nat).length < ubits.length + 1 := by
      simp only [List.length_singleton]
      omega
    have h2 := zeroExtend_ok [1] (ubits.length + 1) h1
    have h3 : ubits.length + 1 - ([1] : List Nat).length = ubits.length := by
      simp only [List.length_singleton]
      omega
    rwa [h3] at h2
  have honelen : (List.replicate ubits.length 0 ++ [1]).length
      = ubits.length + 1 := by
    simp
  have honevalid : bitsValid (List.replicate ubits.length 0 ++ [1]) :=
    bitsValid_append (bitsValid_replicate_zero _)
      (bitsValid_cons (Or.inr rfl) bitsValid_nil)
  have honeval : toNumberBits (List.replicate ubits.length 0 ++ [1]) = 1 := by
    rw [toNumberBits_replicate_zero_append]
    simp [toNumberBits]
  -- the sum
  obtain ⟨s, hadd, hslen, hsvalid, hsval⟩ :=
    add_spec ⟨notBits (0 :: ubits)⟩ ⟨List.replicate ubits.length 0 ++ [1]⟩
      (by show (notBits (0 :: ubits)).length = (List.replicate ubits.length 0 ++ [1]).length
          rw [hflen, honelen]) hfvalid honevalid
  have hsval2 : toNumberBits s.bits + m = 2 ^ (ubits.length + 1) := by
    have h : toNumberBits s.bits
        = toNumberBits (notBits (0 :: ubits))
          + toNumberBits (List.replicate ubits.length 0 ++ [1]) := hsval
    rw [honeval] at h
    omega
  have hslen2 : s.bits.length = ubits.length + 2 := by
    rw [hslen]
    show (notBits (0 :: ubits)).length + 1 = ubits.length + 2
    rw [hflen]
  -- dropping the carry bit
  obtain ⟨sh, st, hs_eq⟩ : ∃ x t, s.bits = x :: t := by
    cases hsb : s.bits with
    | nil => rw [hsb] at hslen2; simp at hslen2
    | cons x t => exact ⟨x, t, rfl⟩
  have hstlen : st.length = ubits.length + 1 := by
    have h := hslen2
    rw [hs_eq] at h
    simpa using h
  have hslt : toNumberBits s.bits < 2 ^ st.length := by
    rw [hstlen]
    omega
  obtain ⟨hdropval, -⟩ := toNumberBits_cons_of_lt (hs_eq ▸ hslt)
  have hstval : toNumberBits st + m = 2 ^ (ubits.length + 1) := by
    rw [← hdropval, ← hs_eq]
    exact hsval2
  have hstvalid : bitsValid st := (bitsValid_of_cons (hs_eq ▸ hsvalid)).2
  -- the head of the final vector is 1
  obtain ⟨rh, rt, hr_eq⟩ : ∃ x t, st = x :: t := by
    cases hst : st with
    | nil => rw [hst] at hstlen; simp at hstlen
    | cons x t => exact ⟨x, t, rfl⟩
  have hrtlen : rt.length = ubits.length := by
    have h := hstlen
    rw [hr_eq] at h
    simpa using h
  have hmlt : m < 2 ^ ubits.length := by
    have h := toNumberBits_lt ubits
    rwa [huval] at h
  have hrhead : rh = 1 := by
    apply head_eq_one_of_le (r := rt)
    rw [← hr_eq, hrtlen]
    have h2w : 2 ^ (ubits.length + 1) = 2 ^ ubits.length + 2 ^ ubits.length := by
      ring
    omega
  have hmain : fromSigned n = .ok ⟨s.bits.drop 1⟩ := by
    simp only [fromSigned, if_neg hn0, hfu, bind, Except.bind, hz, if_neg hnpos,
      fromUnsigned_one, hz2, Binary.not, hadd, pure, Except.pure]
  refine ⟨⟨st⟩, ?_, hstvalid, ?_, ?_, ?_⟩
  · rw [hmain, hs_eq]
    rfl
  · show st.length = Nat.log2 m + 2
    rw [hstlen, hulen]
  · show st.head? = some 1
    rw [hr_eq, hrhead]
    rfl
  · show toNumberBits st + m = 2 ^ (Nat.log2 m + 2)
    rw [hulen] at hstval
    have hexp : (2 : Nat) ^ (Nat.log2 m + 1 + 1) = 2 ^ (Nat.log2 m + 2) := by
      simp [pow_succ]
    rw [hexp] at hstval
    exact hstval

/-- C2: for every non-negative integer `n`, `fromUnsigned(n).toNumber()`
returns `n`: converting to the unsigned binary representation and back is
the identity on the non-negative integers. -/
theorem fromUnsigned_toNumber_roundtrip (n : Nat) :
    (fromUnsigned (n : Int)).map toNumber = .ok n := by
  rcases Nat.eq_zero_or_pos n with rfl | hpos
  · decide
  · obtain ⟨hfu, -, -, hval, -⟩ := fromUnsigned_pos_spec n hpos
    rw [hfu]
    show Except.ok (toNumber ⟨unsignedBitsAux (Nat.log2 n) n⟩) = Except.ok n
    rw [show toNumber ⟨unsignedBitsAux (Nat.log2 n) n⟩
        = toNumberBits (unsignedBitsAux (Nat.log2 n) n) from rfl, hval]

/-- C3: on equal-width valid bit vectors, `add` succeeds with a vector one
bit wider whose unsigned value is exactly the sum of the unsigned
values of the operands — the carry-out becomes the extra leading bit and nothing
is truncated. -/
theorem add_width_and_value (a b : Binary) (hv1 : bitsValid a.bits)
    (hv2 : bitsValid b.bits) (hlen : a.bits.length = b.bits.length) :
    ∃ c : Binary, Binary.add a b = .ok c ∧
      c.bits.length = a.bits.length + 1 ∧
      toNumber c = toNumber a + toNumber b := by
  obtain ⟨c, h1, h2, -, h4⟩ := add_spec a b hlen hv1 hv2
  exact ⟨c, h1, h2, h4⟩

theorem add_width_and_value_witness :
    ∃ c : Binary, Binary.add ⟨[1, 0, 1, 1]⟩ ⟨[0, 1, 0, 1]⟩ = .ok c ∧
      c.bits.length = ([1, 0, 1, 1] : List Nat).length + 1 ∧
      toNumber c = toNumber ⟨[1, 0, 1, 1]⟩ + toNumber ⟨[0, 1, 0, 1]⟩ :=
  add_width_and_value ⟨[1, 0, 1, 1]⟩ ⟨[0, 1, 0, 1]⟩
    (by decide) (by decide) (by decide)

/-- C4 counterexample: `fromUnsigned(-1)` does not fail; the negative
input slips past the `Number.isInteger` check, `Math.log2(-1)` is `NaN`,
the loop is skipped, and an empty `Binary` is returned. -/
theorem fromUnsigned_neg_one_no_error :
    ¬ ∃ e : Err, fromUnsigned (-1) = .error e := by
  rintro ⟨e, h⟩
  rw [show fromUnsigned (-1) = .ok ⟨[]⟩ from by decide] at h
  exact Except.noConfusion h

/-- C4 (amended): `fromUnsigned` rejects only non-integers; a negative
integer input is not rejected — it yields the empty bit vector. -/
theorem fromUnsigned_neg_returns_empty (n : Int) (h : n < 0) :
    fromUnsigned n = .ok ⟨[]⟩ := by
  have h0 : ¬ (n = 0) := by omega
  simp [fromUnsigned, h0, h]

theorem fromUnsigned_neg_returns_empty_witness :
    fromUnsigned (-2) = .ok ⟨[]⟩ :=
  fromUnsigned_neg_returns_empty (-2) (by decide)

/-- C5: for positive `n`, `fromUnsigned(n)` is the minimal-width unsigned
representation — width `floor(log2 n) + 1`, leading bit `1`, value `n` —
and `fromUnsigned(0)` is the single-bit vector `[0]`. -/
theorem fromUnsigned_minimal_width :
    (∀ n : Nat, 0 < n → ∃ b : Binary, fromUnsigned (n : Int) = .ok b ∧
      b.bits.length = Nat.log2 n + 1 ∧ b.bits.head? = some 1 ∧
      toNumber b = n) ∧
    fromUnsigned 0 = .ok ⟨[0]⟩ := by
  constructor
  · intro n hn
    obtain ⟨hfu, hlen, -, hval, hhead⟩ := fromUnsigned_pos_spec n hn
    exact ⟨⟨unsignedBitsAux (Nat.log2 n) n⟩, hfu, hlen, hhead, hval⟩
  · decide

theorem fromUnsigned_minimal_width_witness :
    ∃ b : Binary, fromUnsigned ((6 : Nat) : Int) = .ok b ∧
      b.bits.length = Nat.log2 6 + 1 ∧ b.bits.head? = some 1 ∧
      toNumber b = 6 :=
  fromUnsigned_minimal_width.1 6 (by decide)

/-- C6: zero-extending a vector to any strictly larger width succeeds and
preserves the unsigned value. -/
theorem zeroExtend_preserves_value (b : Binary) (w : Nat)
    (_hv : bitsValid b.bits) (hw : b.bits.length < w) :
    ∃ b2 : Binary, zeroExtend b w = .ok b2 ∧
      b2.bits.length = w ∧ toNumber b2 = toNumber b := by
  obtain ⟨h1, h2, h3⟩ := zeroExtend_spec b w hw
  exact ⟨_, h1, h2, h3⟩

theorem zeroExtend_preserves_value_witness :
    ∃ b2 : Binary, zeroExtend ⟨[1, 0, 1]⟩ 5 = .ok b2 ∧
      b2.bits.length = 5 ∧ toNumber b2 = toNumber ⟨[1, 0, 1]⟩ :=
  zeroExtend_preserves_value ⟨[1, 0, 1]⟩ 5 (by decide) (by decide)

/-- C7: every binary operation (`add`, `and`, `or`, `xor`) on operands of
differing widths fails with the width-mismatch error carrying both widths,
and never returns a result. -/
theorem binary_ops_width_mismatch (a b : Binary)
    (h : a.bits.length ≠ b.bits.length) :
    Binary.add a b = .error (.widthMismatch a.bits.length b.bits.length) ∧
    Binary.and a b = .error (.widthMismatch a.bits.length b.bits.length) ∧
    Binary.or a b = .error (.widthMismatch a.bits.length b.bits.length) ∧
    Binary.xor a b = .error (.widthMismatch a.bits.length b.bits.length) := by
  have h2 : b.bits.length ≠ a.bits.length := Ne.symm h
  refine ⟨?_, ?_, ?_, ?_⟩ <;>
    simp [Binary.add, Binary.and, Binary.or, Binary.xor, h2]

theorem binary_ops_width_mismatch_witness :
    Binary.add ⟨[1, 0]⟩ ⟨[1]⟩
        = .error (.widthMismatch ([1, 0] : List Nat).length ([1] : List Nat).length) ∧
      Binary.and ⟨[1, 0]⟩ ⟨[1]⟩
        = .error (.widthMismatch ([1, 0] : List Nat).length ([1] : List Nat).length) ∧
      Binary.or ⟨[1, 0]⟩ ⟨[1]⟩
        = .error (.widthMismatch ([1, 0] : List Nat).length ([1] : List Nat).length) ∧
      Binary.xor ⟨[1, 0]⟩ ⟨[1]⟩
        = .error (.widthMismatch ([1, 0] : List Nat).length ([1] : List Nat).length) :=
  binary_ops_width_mismatch ⟨[1, 0]⟩ ⟨[1]⟩ (by decide)

/-- C8: `zeroExtend` to a target width less than or equal to the current
width — including the current width itself — fails with the invalid-width
error; extension to the same width is an error, not a no-op. -/
theorem zeroExtend_invalid_width (b : Binary) (w : Nat)
    (h : w ≤ b.bits.length) :
    zeroExtend b w = .error (.invalidWidth b.bits.length w) := by
  simp [zeroExtend, h]

theorem zeroExtend_invalid_width_witness :
    zeroExtend ⟨[1, 0, 1]⟩ 3
      = .error (.invalidWidth ([1, 0, 1] : List Nat).length 3) :=
  zeroExtend_invalid_width ⟨[1, 0, 1]⟩ 3 (by decide)

/-- C10: on any valid bit vector whose most-significant bit is `1`,
`toSignedNumber` returns `toNumber - 2 ^ width`: the twos-complement
interpretation holds for arbitrary bit patterns, not only vectors built
by `fromSigned`. -/
theorem toSignedNumber_negative_msb (b : Binary) (hv : bitsValid b.bits)
    (hh : b.bits.head? = some 1) :
    toSignedNumber b = .ok ((toNumber b : Int) - 2 ^ b.bits.length) :=
  toSignedNumber_neg_spec b hv hh

theorem toSignedNumber_negative_msb_witness :
    toSignedNumber ⟨[1, 0, 1, 1]⟩
      = .ok ((toNumber ⟨[1, 0, 1, 1]⟩ : Int) - 2 ^ ([1, 0, 1, 1] : List Nat).length) :=
  toSignedNumber_negative_msb ⟨[1, 0, 1, 1]⟩ (by decide) (by decide)

/-- C1: for every integer `n`, `fromSigned(n).toSignedNumber()` returns
`n`: the minimal-width twos-complement construction followed by the
signed interpretation is the identity on the integers. -/
theorem fromSigned_toSignedNumber_roundtrip (n : Int) :
    fromSigned n >>= toSignedNumber = .ok n := by
  rcases lt_trichotomy n 0 with hneg | rfl | hpos
  · obtain ⟨r, hr, hrvalid, hrlen, hrhead, hrval⟩ := fromSigned_neg_spec n hneg
    have hts := toSignedNumber_neg_spec r hrvalid hrhead
    rw [hr]
    show toSignedNumber r = .ok n
    rw [hts, hrlen]
    congr 1
    have hT : toNumber r = toNumberBits r.bits := rfl
    have hcast : ((2 : Int) ^ (Nat.log2 n.natAbs + 2))
        = ((2 ^ (Nat.log2 n.natAbs + 2) : Nat) : Int) := by
      push_cast
      ring
    rw [hT, hcast]
    omega
  · decide
  · have h := fromSigned_pos_ok n hpos
    have hm : 0 < n.natAbs := by omega
    obtain ⟨-, -, -, hval, -⟩ := fromUnsigned_pos_spec n.natAbs hm
    rw [h]
    show toSignedNumber ⟨0 :: unsignedBitsAux (Nat.log2 n.natAbs) n.natAbs⟩ = .ok n
    have hcond : ((⟨0 :: unsignedBitsAux (Nat.log2 n.natAbs) n.natAbs⟩ :
        Binary).bits.head? = some 0) := rfl
    rw [toSignedNumber, if_pos hcond]
    congr 1
    have hT : toNumber ⟨0 :: unsignedBitsAux (Nat.log2 n.natAbs) n.natAbs⟩
        = toNumberBits (unsignedBitsAux (Nat.log2 n.natAbs) n.natAbs) := by
      show toNumberBits (0 :: unsignedBitsAux (Nat.log2 n.natAbs) n.natAbs)
          = toNumberBits (unsignedBitsAux (Nat.log2 n.natAbs) n.natAbs)
      simp [toNumberBits]
    rw [hT, hval]
    omega

end Binary
